import Mathlib

/-!
Verification of the chunking-and-batching decision engine of the
gemini-batcher repository, as a shallow embedding of the Python code
samples in the repository documentation.

Strings are modelled as `List Char` (or a generic `List α`), Python
list/str slicing as `pySlice`, and the numeric similarity scores as `ℚ`.
External collaborators (token counting, generation, embeddings) are
modelled as function parameters.
-/

namespace GB

/-- Python slice `l[a:b]` for non-negative indices: drop `a`, keep `b - a`. -/
def pySlice {α : Type} (a b : Nat) (l : List α) : List α := (l.drop a).take (b - a)

/-- Python `range(a, b)`. -/
def pyRange (a b : Nat) : List Nat := (List.range (b - a)).map (a + ·)

/-- Fixed chunking from docs/concepts/fixed_chunking.md:
`chunk_count = math.ceil(len(content) / chunk_char_size)`;
`chunked_content[i] = content[i*c : min(i*c + c, len(content))]`. -/
def chunked_content_fixed {α : Type} (content : List α) (chunk_char_size : Nat) :
    List (List α) :=
  (List.range ((content.length + chunk_char_size - 1) / chunk_char_size)).map
    (fun i => pySlice (i * chunk_char_size)
      (min (i * chunk_char_size + chunk_char_size) content.length) content)

/-- Sliding window chunking from docs/concepts/fixed_chunking.md:
`chunk_count = math.ceil(len(content) / (chunk_char_size - window_char_size))`;
`chunked_content[i] = content[i*(c-w) : min(i*(c-w) + c, len(content))]`. -/
def chunked_content_sliding {α : Type} (content : List α)
    (chunk_char_size window_char_size : Nat) : List (List α) :=
  (List.range ((content.length + (chunk_char_size - window_char_size) - 1) /
      (chunk_char_size - window_char_size))).map
    (fun i => pySlice (i * (chunk_char_size - window_char_size))
      (min (i * (chunk_char_size - window_char_size) + chunk_char_size) content.length)
      content)

/-- Number of positions shared by sliding-window chunks `i` and `i+1`:
chunk `i` ends at `min(i*step + c, L)` and chunk `i+1` starts at `(i+1)*step`. -/
def sliding_overlap (L chunk_char_size window_char_size i : Nat) : Nat :=
  min (i * (chunk_char_size - window_char_size) + chunk_char_size) L -
    (i + 1) * (chunk_char_size - window_char_size)

section Helpers

/-- Ceiling division facts for `(L + c - 1) / c` with `0 < c`. -/
theorem ceil_div_ge (L c : Nat) (hc : 0 < c) : L ≤ ((L + c - 1) / c) * c := by
  rcases Nat.eq_zero_or_pos L with hL | hL
  · simp [hL]
  · have he : (L + c - 1) / c = (L - 1) / c + 1 := by
      have : L + c - 1 = (L - 1) + c := by omega
      rw [this, Nat.add_div_right _ hc]
    have h1 := Nat.div_add_mod (L - 1) c
    have h2 := Nat.mod_lt (L - 1) hc
    have h3 : L - 1 < ((L - 1) / c + 1) * c := by
      calc L - 1 = c * ((L - 1) / c) + (L - 1) % c := h1.symm
        _ < c * ((L - 1) / c) + c := Nat.add_lt_add_left h2 _
        _ = ((L - 1) / c + 1) * c := by ring
    rw [he]
    omega

theorem ceil_div_pred_mul_lt (L c : Nat) (hc : 0 < c) (hL : 0 < L) :
    (((L + c - 1) / c) - 1) * c < L := by
  have he : (L + c - 1) / c = (L - 1) / c + 1 := by
    have : L + c - 1 = (L - 1) + c := by omega
    rw [this, Nat.add_div_right _ hc]
  have h1 : ((L - 1) / c) * c ≤ L - 1 := Nat.div_mul_le_self _ _
  rw [he, Nat.add_sub_cancel]
  omega

theorem ceil_div_lt_of_lt (p L c : Nat) (hc : 0 < c) (hp : p < L) :
    p / c < (L + c - 1) / c := by
  have he : (L + c - 1) / c = (L - 1) / c + 1 := by
    have h2 : L + c - 1 = (L - 1) + c := by omega
    rw [h2, Nat.add_div_right _ hc]
  have : p / c ≤ (L - 1) / c := Nat.div_le_div_right (by omega)
  omega

/-- A slice starting at `i * c` and clipped at the content length is the same
as taking `c` elements after dropping `i * c`. -/
theorem pySlice_eq_drop_take {α : Type} (l : List α) (i c : Nat) :
    pySlice (i * c) (min (i * c + c) l.length) l = (l.drop (i * c)).take c := by
  unfold pySlice
  refine List.take_eq_take.mpr ?_
  rw [List.length_drop]
  omega

/-- Concatenating `n` successive `c`-sized slices recovers a list of length at
most `n * c`. -/
theorem flatten_take_chunks {α : Type} (c : Nat) :
    ∀ (n : Nat) (l : List α), l.length ≤ n * c →
      ((List.range n).map (fun i => (l.drop (i * c)).take c)).flatten = l := by
  intro n
  induction n with
  | zero =>
    intro l h
    simp only [Nat.zero_mul, Nat.le_zero, List.length_eq_zero] at h
    simp [h]
  | succ n ih =>
    intro l h
    rw [List.range_succ_eq_map]
    simp only [List.map_cons, List.map_map, List.flatten_cons, Nat.zero_mul, List.drop_zero]
    have hmap : ∀ i ∈ List.range n,
        ((fun i => (l.drop (i * c)).take c) ∘ Nat.succ) i =
          (fun i => ((l.drop c).drop (i * c)).take c) i := by
      intro i _
      simp only [Function.comp_apply]
      rw [List.drop_drop, Nat.succ_mul, Nat.add_comm]
    have hlen : (l.drop c).length ≤ n * c := by
      rw [List.length_drop]
      have hnc : (n + 1) * c = n * c + c := by ring
      omega
    rw [List.map_congr_left hmap, ih (l.drop c) hlen]
    exact List.take_append_drop c l

end Helpers

/-- C1: For content of length L and chunk_char_size c > 0, fixed chunking
produces exactly ceil(L/c) chunks, each of length at most c, and their
concatenation in order equals the original content. -/
theorem C1_fixed_chunking {α : Type} (content : List α) (c : Nat) (hc : 0 < c) :
    (chunked_content_fixed content c).length = (content.length + c - 1) / c ∧
    (∀ ch ∈ chunked_content_fixed content c, ch.length ≤ c) ∧
    (chunked_content_fixed content c).flatten = content := by
  refine ⟨by simp [chunked_content_fixed], ?_, ?_⟩
  · intro ch hch
    simp only [chunked_content_fixed, List.mem_map, List.mem_range] at hch
    obtain ⟨i, _, rfl⟩ := hch
    simp only [pySlice, List.length_take, List.length_drop]
    omega
  · unfold chunked_content_fixed
    have hmap : ∀ i ∈ List.range ((content.length + c - 1) / c),
        pySlice (i * c) (min (i * c + c) content.length) content =
          (content.drop (i * c)).take c := by
      intro i _
      exact pySlice_eq_drop_take content i c
    rw [List.map_congr_left hmap]
    exact flatten_take_chunks c _ content (ceil_div_ge content.length c hc)

/-- A slice is always an inner segment of the sliced list. -/
theorem pySlice_sandwich {α : Type} (a b : Nat) (l : List α) :
    ∃ pre post, pre ++ pySlice a b l ++ post = l := by
  refine ⟨l.take a, (l.drop a).drop (b - a), ?_⟩
  rw [List.append_assoc]
  unfold pySlice
  rw [List.take_append_drop, List.take_append_drop]

theorem lt_div_add_one_mul (a b : Nat) (hb : 0 < b) : a < (a / b + 1) * b := by
  have h1 := Nat.div_add_mod a b
  have h2 := Nat.mod_lt a hb
  calc a = b * (a / b) + a % b := h1.symm
    _ < b * (a / b) + b := Nat.add_lt_add_left h2 _
    _ = (a / b + 1) * b := by ring

/-- C2 (amended): chunk i of sliding-window chunking is the slice
[i*step, min(i*step+c, L)), the chunk count is ceil(L/step), adjacent chunks
i and i+1 share exactly min(w, L - (i+1)*step) positions (equal to w only
while the earlier chunk is not clipped by the end of the content), the chunks
cover the content with no gap, and for L=60, c=30, w=10 the chunks are
[0,30), [20,50), [40,60). -/
theorem C2_sliding_window {α : Type} (content : List α) (c w : Nat) (hcw : w < c) :
    (chunked_content_sliding content c w).length =
      (content.length + (c - w) - 1) / (c - w) ∧
    (∀ i, i < (content.length + (c - w) - 1) / (c - w) →
      (chunked_content_sliding content c w).getD i [] =
        pySlice (i * (c - w)) (min (i * (c - w) + c) content.length) content) ∧
    (∀ i, i + 1 < (content.length + (c - w) - 1) / (c - w) →
      sliding_overlap content.length c w i =
        min w (content.length - (i + 1) * (c - w))) ∧
    (∀ p, p < content.length → ∃ i, i < (content.length + (c - w) - 1) / (c - w) ∧
      i * (c - w) ≤ p ∧ p < min (i * (c - w) + c) content.length) ∧
    (content.length = 60 → c = 30 → w = 10 →
      chunked_content_sliding content c w =
        [pySlice 0 30 content, pySlice 20 50 content, pySlice 40 60 content]) := by
  have hstep : 0 < c - w := by omega
  have hlen : (chunked_content_sliding content c w).length =
      (content.length + (c - w) - 1) / (c - w) := by
    simp [chunked_content_sliding]
  refine ⟨hlen, ?_, ?_, ?_, ?_⟩
  · intro i hi
    have hi' : i < (chunked_content_sliding content c w).length := by omega
    rw [List.getD_eq_getElem _ _ hi']
    simp [chunked_content_sliding]
  · intro i hi
    have hL : 0 < content.length := by
      by_contra hL
      have h0 : content.length = 0 := by omega
      rw [h0] at hi
      rw [Nat.div_eq_of_lt (by omega)] at hi
      omega
    have h3 := ceil_div_pred_mul_lt content.length (c - w) hstep hL
    have e2 : (i + 1) * (c - w) ≤
        ((content.length + (c - w) - 1) / (c - w) - 1) * (c - w) :=
      Nat.mul_le_mul_right _ (by omega)
    have e1 : (i + 1) * (c - w) = i * (c - w) + (c - w) := by ring
    unfold sliding_overlap
    omega
  · intro p hp
    refine ⟨p / (c - w), ceil_div_lt_of_lt p content.length (c - w) hstep hp, ?_, ?_⟩
    · exact Nat.div_mul_le_self p (c - w)
    · have h4 := lt_div_add_one_mul p (c - w) hstep
      have e1 : (p / (c - w) + 1) * (c - w) = p / (c - w) * (c - w) + (c - w) := by ring
      omega
  · intro hL hc hw
    subst hc
    subst hw
    have hcnt : (content.length + (30 - 10) - 1) / (30 - 10) = 3 := by rw [hL]
    refine List.ext_getElem (by rw [hlen, hcnt]; rfl) ?_
    intro i hi1 hi2
    rw [hlen, hcnt] at hi1
    simp only [chunked_content_sliding, List.getElem_map, List.getElem_range]
    interval_cases i <;>
      simp [hL, Nat.min_def]
/-- C2 counterexample: with L=13, c=10, w=8 (step 2) the chunk count is 7 and
the non-final adjacent pair (2,3) shares only 7 positions, not w=8, refuting
the claim that only the final pair may overlap by less than w. -/
theorem C2_sliding_window_counterexample :
    (chunked_content_sliding (List.range 13) 10 8).length = 7 ∧
    sliding_overlap 13 10 8 2 = 7 ∧
    ¬ (∀ i, i + 2 < (chunked_content_sliding (List.range 13) 10 8).length →
        sliding_overlap 13 10 8 i = 8) := by
  refine ⟨by decide, by decide, ?_⟩
  intro h
  have := h 2 (by decide)
  simp [sliding_overlap] at this

/-- C2 witness: concrete sliding-window instance, including the worked
example with a 60-character content. -/
theorem C2_sliding_window_witness :
    1 < 3 ∧
    (chunked_content_sliding (List.range 60) 30 10 =
      [pySlice 0 30 (List.range 60), pySlice 20 50 (List.range 60),
        pySlice 40 60 (List.range 60)]) :=
  ⟨by decide,
    (C2_sliding_window (List.range 60) 30 10 (by decide)).2.2.2.2 (by decide) rfl rfl⟩

/-- C10: with parameters c > w and step = c - w, whenever step < L ≤ c the
implementation still emits ceil(L/step) ≥ 2 chunks, the first chunk is the
entire content, and every chunk is wholly contained in the content, so the
trailing chunks are fully redundant. -/
theorem C10_sliding_window_redundant {α : Type} (content : List α) (c w : Nat)
    (hcw : w < c) (h1 : c - w < content.length) (h2 : content.length ≤ c) :
    (chunked_content_sliding content c w).length =
      (content.length + (c - w) - 1) / (c - w) ∧
    2 ≤ (chunked_content_sliding content c w).length ∧
    (chunked_content_sliding content c w).getD 0 [] = content ∧
    (∀ ch ∈ chunked_content_sliding content c w,
      ∃ pre post, pre ++ ch ++ post = content) := by
  have hstep : 0 < c - w := by omega
  have hlen : (chunked_content_sliding content c w).length =
      (content.length + (c - w) - 1) / (c - w) := by
    simp [chunked_content_sliding]
  have hcnt2 : 2 ≤ (content.length + (c - w) - 1) / (c - w) := by
    rw [Nat.le_div_iff_mul_le hstep]
    omega
  refine ⟨hlen, by omega, ?_, ?_⟩
  · have h0 : 0 < (chunked_content_sliding content c w).length := by omega
    rw [List.getD_eq_getElem _ _ h0]
    simp only [chunked_content_sliding, List.getElem_map, List.getElem_range]
    unfold pySlice
    simp only [Nat.zero_mul, List.drop_zero, Nat.zero_add]
    have hmin : min c content.length = content.length := by omega
    rw [hmin, Nat.sub_zero, List.take_length]
  · intro ch hch
    simp only [chunked_content_sliding, List.mem_map, List.mem_range] at hch
    obtain ⟨i, _, rfl⟩ := hch
    exact pySlice_sandwich _ _ content

/-- C10 witness: content of length 4 with c=4, w=3 (step 1): the first chunk
already equals the whole content. -/
theorem C10_sliding_window_redundant_witness :
    3 < 4 ∧ (chunked_content_sliding (List.range 4) 4 3).getD 0 [] = List.range 4 :=
  ⟨by decide,
    (C10_sliding_window_redundant (List.range 4) 4 3 (by decide) (by decide)
      (by decide)).2.2.1⟩

/-- C1 witness: concrete instance with 7 characters and chunk size 3. -/
theorem C1_fixed_chunking_witness :
    0 < 3 ∧ (chunked_content_fixed (String.toList "abcdefg") 3).flatten =
      String.toList "abcdefg" :=
  ⟨by decide, (C1_fixed_chunking (String.toList "abcdefg") 3 (by decide)).2.2⟩

/-- Python `"\n".join(strings)`. -/
def joinNewline (xs : List (List Char)) : List Char :=
  (xs.intersperse [Char.ofNat 10]).flatten

/-- Fixed batching loop from the Batching concepts page (cited as lines 84-88):
`for i in range(len(questions), questions_per_batch):
   batch = "\n".join(questions[i * questions_per_batch :
                               min((i+1) * questions_per_batch, len(questions))])
   batched_questions.append(batch)`. -/
def batched_questions (questions : List (List Char)) (questions_per_batch : Nat) :
    List (List Char) :=
  (pyRange questions.length questions_per_batch).map
    (fun i => joinNewline (pySlice (i * questions_per_batch)
      (min ((i + 1) * questions_per_batch) questions.length) questions))

/-- C3 (code evaluation): the fixed-batching loop iterates
`range(len(questions), questions_per_batch)`, which is empty whenever
`questions_per_batch ≤ len(questions)`; in particular 12 questions with
batch size 5 produce no batches at all instead of batches of sizes [5,5,2]. -/
theorem C3_fixed_batching_empty :
    (∀ (questions : List (List Char)) (b : Nat), b ≤ questions.length →
      batched_questions questions b = []) ∧
    batched_questions (List.replicate 12 [Char.ofNat 113]) 5 = [] := by
  constructor
  · intro questions b hb
    unfold batched_questions pyRange
    have h0 : b - questions.length = 0 := by omega
    rw [h0]
    rfl
  · rfl

/-- C3 witness: a single question with batch size 1 already yields no batch. -/
theorem C3_fixed_batching_empty_witness :
    1 ≤ 1 ∧ batched_questions [[Char.ofNat 97]] 1 = [] :=
  ⟨by decide, C3_fixed_batching_empty.1 [[Char.ofNat 97]] 1 (by decide)⟩

/-- A Python value that is either a string or a list, as manipulated by the
token-aware queue loop (whose slicing is applied to both kinds). -/
inductive PyVal : Type where
  | str : List Char → PyVal
  | lst : List PyVal → PyVal

/-- Python `len` on strings and lists. -/
def pyLen : PyVal → Nat
  | .str s => s.length
  | .lst l => l.length

/-- Python slicing `v[a:b]` on strings and lists. -/
def pySliceVal (a b : Nat) : PyVal → PyVal
  | .str s => .str (pySlice a b s)
  | .lst l => .lst (pySlice a b l)

/-- One iteration of the token-aware while loop from
docs/concepts/other_techniques.md (lines 58-95): pop the front item; if the
input token check fails, enqueue
`(curr_content[0 : len//2 + 1], curr_questions)` and
`(curr_content[len//2 + 1 : len], curr_questions)`; otherwise if generation
was truncated, enqueue `(curr_content, curr_questions[0 : m//2 + 1])` and
`(curr_content, curr_content[m//2 + 1 : m])` where `m = len(curr_questions)`
(the second slice is taken from `curr_content`, exactly as in the source);
otherwise the item completes and is dropped from the queue. -/
def tokenAwareStep (tooBig : PyVal → Bool) (truncated : PyVal → PyVal → Bool) :
    List (PyVal × PyVal) → List (PyVal × PyVal)
  | [] => []
  | (curr_content, curr_questions) :: rest =>
    if tooBig curr_content then
      rest ++
        [(pySliceVal 0 (pyLen curr_content / 2 + 1) curr_content, curr_questions),
         (pySliceVal (pyLen curr_content / 2 + 1) (pyLen curr_content) curr_content,
           curr_questions)]
    else if truncated curr_content curr_questions then
      rest ++
        [(curr_content, pySliceVal 0 (pyLen curr_questions / 2 + 1) curr_questions),
         (curr_content,
           pySliceVal (pyLen curr_questions / 2 + 1) (pyLen curr_questions)
             curr_content)]
    else rest

/-- Input-token predicate that reports any content of length at least 2 as
exceeding the model input limit. -/
def tooBigLen2 (v : PyVal) : Bool := Nat.ble 2 (pyLen v)

/-- C4 (code evaluation): on an output-truncated item with content "abcdef"
and questions ["q1","q2","q3"], the loop enqueues the first half of the
questions paired with the content, but its second enqueued payload is the
slice "c" of the *content*, not the remaining questions ["q3"]; the input
side, in contrast, bisects the content into "abcd" ++ "ef" with the question
subset unchanged and makes no call for that item. -/
theorem C4_question_split_slices_content :
    tokenAwareStep (fun _ => false) (fun _ _ => true)
      [(PyVal.str (String.toList "abcdef"),
        PyVal.lst [PyVal.str (String.toList "q1"), PyVal.str (String.toList "q2"),
          PyVal.str (String.toList "q3")])] =
      [(PyVal.str (String.toList "abcdef"),
        PyVal.lst [PyVal.str (String.toList "q1"), PyVal.str (String.toList "q2")]),
       (PyVal.str (String.toList "abcdef"), PyVal.str (String.toList "c"))] ∧
    PyVal.str (String.toList "c") ≠
      PyVal.lst [PyVal.str (String.toList "q3")] ∧
    tokenAwareStep (fun _ => true) (fun _ _ => false)
      [(PyVal.str (String.toList "abcdef"),
        PyVal.lst [PyVal.str (String.toList "q1")])] =
      [(PyVal.str (String.toList "abcd"), PyVal.lst [PyVal.str (String.toList "q1")]),
       (PyVal.str (String.toList "ef"), PyVal.lst [PyVal.str (String.toList "q1")])] :=
  ⟨rfl, fun h => PyVal.noConfusion h, rfl⟩

/-- An item whose content is the 2-character string "ab" is re-enqueued
unchanged by the loop whenever the input check rejects it, because
`"ab"[0 : 2//2 + 1] = "ab"`. -/
theorem ab_item_persists (tr : PyVal → PyVal → Bool) (q : List (PyVal × PyVal))
    (h : (PyVal.str [Char.ofNat 97, Char.ofNat 98], PyVal.lst []) ∈ q) :
    (PyVal.str [Char.ofNat 97, Char.ofNat 98], PyVal.lst []) ∈
      tokenAwareStep tooBigLen2 tr q := by
  match q with
  | [] => cases h
  | (c, qs) :: rest =>
    rcases List.mem_cons.mp h with heq | hmem
    · cases heq
      simp only [tokenAwareStep]
      rw [if_pos (by rfl)]
      refine List.mem_append_right _ ?_
      show _ ∈ [(PyVal.str [Char.ofNat 97, Char.ofNat 98], PyVal.lst []), _]
      exact List.mem_cons_self _ _
    · simp only [tokenAwareStep]
      split_ifs with h1 h2
      · exact List.mem_append_left _ hmem
      · exact List.mem_append_left _ hmem
      · exact hmem

/-- C6: the token-aware loop does not terminate on every input: with an input
feasibility check that rejects every content of length at least 2, the queue
started at the single item ("ab", []) contains that same item after any
number of iterations, so it never drains, and the loop has no failure state
to surface such an item. -/
theorem C6_token_aware_no_termination (n : Nat) :
    (PyVal.str [Char.ofNat 97, Char.ofNat 98], PyVal.lst []) ∈
      (tokenAwareStep tooBigLen2 (fun _ _ => false))^[n]
        [(PyVal.str [Char.ofNat 97, Char.ofNat 98], PyVal.lst [])] ∧
    (tokenAwareStep tooBigLen2 (fun _ _ => false))^[n]
        [(PyVal.str [Char.ofNat 97, Char.ofNat 98], PyVal.lst [])] ≠ [] := by
  induction n with
  | zero => exact ⟨List.mem_cons_self _ _, by simp⟩
  | succ n ih =>
    have hmem := ab_item_persists (fun _ _ => false) _ ih.1
    rw [Function.iterate_succ_apply']
    exact ⟨hmem, List.ne_nil_of_mem hmem⟩

/-- Sliding-window text chunking strategy configuration (dataclass fields of
`TextSlidingWindowChunking`). -/
structure TextSlidingWindowChunking where
  chunk_char_size : Int
  window_char_size : Int

/-- Sliding-window media chunking strategy configuration (dataclass fields of
`MediaSlidingWindowChunking`). -/
structure MediaSlidingWindowChunking where
  chunk_duration : Int
  window_duration : Int

/-- A constructor-time configuration error. -/
inductive ConfigError : Type where
  | invalidSlidingWindowParams

/-- Modelled from the spec: the constructor-time validation of the
`TextSlidingWindowChunking` dataclass. The validation code itself
(gemini_batcher package) is not among the documentation sources; the spec
requires `chunk_char_size > window_char_size` and `window_char_size >= 0`,
rejected with a configuration error at construction, never deferred. -/
def mkTextSlidingWindowChunking (chunk_char_size window_char_size : Int) :
    Except ConfigError TextSlidingWindowChunking :=
  if chunk_char_size ≤ window_char_size ∨ window_char_size < 0 then
    .error .invalidSlidingWindowParams
  else .ok ⟨chunk_char_size, window_char_size⟩

/-- Modelled from the spec: the constructor-time validation of the
`MediaSlidingWindowChunking` dataclass, over the time axis
(`chunk_duration > window_duration >= 0`). -/
def mkMediaSlidingWindowChunking (chunk_duration window_duration : Int) :
    Except ConfigError MediaSlidingWindowChunking :=
  if chunk_duration ≤ window_duration ∨ window_duration < 0 then
    .error .invalidSlidingWindowParams
  else .ok ⟨chunk_duration, window_duration⟩

/-- C7: constructing a text or media sliding-window strategy fails with a
configuration error exactly when the parameters violate
chunk size > window size >= 0, and succeeds (is silently accepted) exactly
when they satisfy it, so a violation is caught at construction time. -/
theorem C7_sliding_window_validation (c w : Int) :
    (mkTextSlidingWindowChunking c w =
        Except.error ConfigError.invalidSlidingWindowParams ↔ (c ≤ w ∨ w < 0)) ∧
    (mkMediaSlidingWindowChunking c w =
        Except.error ConfigError.invalidSlidingWindowParams ↔ (c ≤ w ∨ w < 0)) ∧
    ((∃ cfg, mkTextSlidingWindowChunking c w = Except.ok cfg) ↔ (w < c ∧ 0 ≤ w)) ∧
    ((∃ cfg, mkMediaSlidingWindowChunking c w = Except.ok cfg) ↔ (w < c ∧ 0 ≤ w)) := by
  unfold mkTextSlidingWindowChunking mkMediaSlidingWindowChunking
  by_cases h : c ≤ w ∨ w < 0
  · rw [if_pos h, if_pos h]
    refine ⟨⟨fun _ => h, fun _ => rfl⟩, ⟨fun _ => h, fun _ => rfl⟩, ?_, ?_⟩ <;>
      exact ⟨fun hk => absurd hk.choose_spec (fun he => Except.noConfusion he),
        fun hv => absurd h (by omega)⟩
  · rw [if_neg h, if_neg h]
    push_neg at h
    refine ⟨?_, ?_, ?_, ?_⟩
    · exact ⟨fun he => Except.noConfusion he, fun hd => absurd hd (by omega)⟩
    · exact ⟨fun he => Except.noConfusion he, fun hd => absurd hd (by omega)⟩
    · exact ⟨fun _ => ⟨by omega, by omega⟩, fun _ => ⟨_, rfl⟩⟩
    · exact ⟨fun _ => ⟨by omega, by omega⟩, fun _ => ⟨_, rfl⟩⟩

/-- Python `\s` whitespace (ASCII). -/
def isPySpace (ch : Char) : Bool :=
  ch == Char.ofNat 32 || ch == Char.ofNat 9 || ch == Char.ofNat 10 ||
    ch == Char.ofNat 13 || ch == Char.ofNat 11 || ch == Char.ofNat 12

/-- Sentence-terminator characters of the lookbehind `(?<=[.!?])`. -/
def isSentTerm (ch : Char) : Bool :=
  ch == Char.ofNat 46 || ch == Char.ofNat 33 || ch == Char.ofNat 63

/-- `re.split(r'(?<=[.!?])\s+', content)`: scan left to right accumulating the
current fragment (in reverse); a whitespace character whose preceding
character is a sentence terminator starts a delimiter match, which greedily
consumes the whole whitespace run (the `skip` flag); every other character
joins the current fragment. -/
def reSplitSentences : Bool → List Char → List Char → List (List Char)
  | _, acc, [] => [acc.reverse]
  | skip, acc, ch :: rest =>
    if skip && isPySpace ch then
      reSplitSentences true acc rest
    else if isPySpace ch && (match acc with | p :: _ => isSentTerm p | [] => false) then
      acc.reverse :: reSplitSentences true [] rest
    else
      reSplitSentences false (ch :: acc) rest

/-- Python `str.strip()` restricted to whitespace. -/
def pyStrip (s : List Char) : List Char :=
  ((s.dropWhile isPySpace).reverse.dropWhile isPySpace).reverse

/-- The sentence segmentation from docs/concepts/other_techniques.md:
`sentences = re.split(r'(?<=[.!?])\s+', content)` followed by
`sentences = [sentence.strip() for sentence in sentences]`. -/
def sentences (content : List Char) : List (List Char) :=
  (reSplitSentences false [] content).map pyStrip

theorem dropWhile_dropWhile {α : Type} (p : α → Bool) (l : List α) :
    (l.dropWhile p).dropWhile p = l.dropWhile p := by
  induction l with
  | nil => rfl
  | cons a t ih =>
    by_cases h : p a
    · rw [List.dropWhile_cons_of_pos h, ih]
    · rw [List.dropWhile_cons_of_neg h, List.dropWhile_cons_of_neg h]

theorem dropWhile_is_drop_of {α : Type} (p : α → Bool) (l : List α) :
    ∃ t, t ++ l.dropWhile p = l := by
  induction l with
  | nil => exact ⟨[], rfl⟩
  | cons a t ih =>
    by_cases h : p a
    · obtain ⟨u, hu⟩ := ih
      rw [List.dropWhile_cons_of_pos h]
      exact ⟨a :: u, by rw [List.cons_append, hu]⟩
    · rw [List.dropWhile_cons_of_neg h]
      exact ⟨[], rfl⟩

theorem dropWhile_eq_self_of_front {α : Type} (p : α → Bool) (a b : List α)
    (ha : a.dropWhile p = a) (hb : ∃ t, b ++ t = a) : b.dropWhile p = b := by
  obtain ⟨t, rfl⟩ := hb
  cases b with
  | nil => rfl
  | cons h tb =>
    by_cases hp : p h
    · exfalso
      rw [List.cons_append, List.dropWhile_cons_of_pos hp] at ha
      have h1 : ((tb ++ t).dropWhile p).length ≤ (tb ++ t).length :=
        List.Sublist.length_le (List.dropWhile_sublist p)
      have h2 : ((tb ++ t).dropWhile p).length = (h :: (tb ++ t)).length :=
        congrArg List.length ha
      simp only [List.length_cons] at h2
      omega
    · rw [List.dropWhile_cons_of_neg hp]

/-- Stripping is idempotent: every stripped fragment is already stripped. -/
theorem pyStrip_idem (x : List Char) : pyStrip (pyStrip x) = pyStrip x := by
  have ha : (x.dropWhile isPySpace).dropWhile isPySpace = x.dropWhile isPySpace :=
    dropWhile_dropWhile isPySpace x
  have hd : ((x.dropWhile isPySpace).reverse.dropWhile isPySpace).dropWhile isPySpace =
      (x.dropWhile isPySpace).reverse.dropWhile isPySpace :=
    dropWhile_dropWhile isPySpace _
  have hfront : ∃ t, pyStrip x ++ t = x.dropWhile isPySpace := by
    obtain ⟨t, ht⟩ := dropWhile_is_drop_of isPySpace (x.dropWhile isPySpace).reverse
    refine ⟨t.reverse, ?_⟩
    have := congrArg List.reverse ht
    simp only [List.reverse_append, List.reverse_reverse] at this
    exact this
  have hb : (pyStrip x).dropWhile isPySpace = pyStrip x :=
    dropWhile_eq_self_of_front isPySpace _ _ ha hfront
  show ((((pyStrip x).dropWhile isPySpace).reverse.dropWhile isPySpace)).reverse = pyStrip x
  rw [hb]
  show (((pyStrip x).reverse.dropWhile isPySpace)).reverse = pyStrip x
  have hrev : (pyStrip x).reverse = (x.dropWhile isPySpace).reverse.dropWhile isPySpace := by
    unfold pyStrip
    rw [List.reverse_reverse]
  rw [hrev, hd]
  rfl

theorem reSplitSentences_ne_nil :
    ∀ (s : List Char) (skip : Bool) (acc : List Char),
      reSplitSentences skip acc s ≠ [] := by
  intro s
  induction s with
  | nil => intro skip acc; simp [reSplitSentences]
  | cons ch rest ih =>
    intro skip acc
    simp only [reSplitSentences]
    split
    · exact ih true acc
    · split
      · simp
      · exact ih false (ch :: acc)

/-- C8 (amended): the segmenter never returns an empty sequence (empty input
yields the single-element sequence containing the empty string), every
returned fragment is already stripped of leading and trailing whitespace
(whitespace-only fragments are retained as empty strings, not dropped), and
it splits at whitespace runs preceded by a sentence terminator, preserving
order, as on the worked example. -/
theorem C8_sentence_segmentation (content : List Char) :
    sentences content ≠ [] ∧
    (∀ f ∈ sentences content, pyStrip f = f) ∧
    sentences [] = [[]] ∧
    sentences (String.toList "Hello world. How are you?  I am fine.") =
      [String.toList "Hello world.", String.toList "How are you?",
        String.toList "I am fine."] := by
  refine ⟨?_, ?_, rfl, by decide⟩
  · intro h
    unfold sentences at h
    rw [List.map_eq_nil_iff] at h
    exact reSplitSentences_ne_nil content false [] h
  · intro f hf
    unfold sentences at hf
    rw [List.mem_map] at hf
    obtain ⟨g, _, rfl⟩ := hf
    exact pyStrip_idem g

/-- C8 counterexample: on empty input the code returns [""], not the empty
sequence, and on "Hi. " the whitespace-only final fragment is kept as "",
not dropped. -/
theorem C8_sentence_segmentation_counterexample :
    sentences [] = [[]] ∧ ([[]] : List (List Char)) ≠ [] ∧
    sentences (String.toList "Hi. ") = [String.toList "Hi.", []] := by
  refine ⟨rfl, by simp, by decide⟩

/-- C8 witness: a concrete fragment of a concrete input is strip-fixed. -/
theorem C8_sentence_segmentation_witness :
    pyStrip (String.toList "Hi.") = String.toList "Hi." :=
  (C8_sentence_segmentation (String.toList "Hi. Bye.")).2.1
    (String.toList "Hi.") (by decide)

/-- `np.mean` over rationals. -/
def np_mean (l : List ℚ) : ℚ := l.sum / l.length

/-- `np.std(l) ** 2`: the population variance, so that `np.std` is any
nonnegative `sd` with `sd * sd = np_variance l`. -/
def np_variance (l : List ℚ) : ℚ :=
  (l.map (fun x => (x - np_mean l) * (x - np_mean l))).sum / l.length

/-- The boundary decision of the semantic chunking loop: the branch bodies of
the `if`/`elif` are identical, so one step closes the current chunk exactly
when `similarities[i] < similarity_threshold and size >= min_sentences` or,
failing that, `size >= max_sentences`. -/
def chunk_closes (similarity_threshold : ℚ) (min_sentences max_sentences : Nat)
    (s : ℚ) (size : Nat) : Bool :=
  if s < similarity_threshold ∧ min_sentences ≤ size then true
  else if max_sentences ≤ size then true
  else false

/-- The `for i in range(len(similarities))` loop of semantic chunking,
carrying the running index `i` and `current_chunk_start_pos`, and returning
the list of boundaries it appends. -/
def semantic_boundaries_loop (thr : ℚ) (min_sentences max_sentences : Nat) :
    List ℚ → Nat → Nat → List Nat
  | [], _, _ => []
  | s :: rest, i, start =>
    if chunk_closes thr min_sentences max_sentences s ((i + 1) - start) then
      (i + 1) :: semantic_boundaries_loop thr min_sentences max_sentences rest (i + 1) (i + 1)
    else semantic_boundaries_loop thr min_sentences max_sentences rest (i + 1) start

/-- The boundary list of semantic chunking: `boundaries = [0]`, the loop's
appended boundaries, then `len(similarities) + 1` appended if
`boundaries[-1]` differs from it. -/
def semantic_boundaries (thr : ℚ) (min_sentences max_sentences : Nat)
    (similarities : List ℚ) : List Nat :=
  let bs := 0 :: semantic_boundaries_loop thr min_sentences max_sentences similarities 0 0
  if bs.getLast (List.cons_ne_nil 0 _) ≠ similarities.length + 1 then
    bs ++ [similarities.length + 1]
  else bs

/-- Sentence counts of the chunks `sentences[boundaries[i] : boundaries[i+1]]`. -/
def chunk_sizes (boundaries : List Nat) : List Nat :=
  (boundaries.zip boundaries.tail).map (fun p => p.2 - p.1)

theorem chunk_closes_iff (thr : ℚ) (minS maxS : Nat) (s : ℚ) (size : Nat) :
    chunk_closes thr minS maxS s size = true ↔
      ((s < thr ∧ minS ≤ size) ∨ maxS ≤ size) := by
  unfold chunk_closes
  split_ifs with h1 h2
  · simp [h1]
  · simp [h2]
  · simp [h1, h2]

theorem chunk_sizes_cons_cons (x y : Nat) (rest : List Nat) :
    chunk_sizes (x :: y :: rest) = (y - x) :: chunk_sizes (y :: rest) := rfl

theorem chunk_sizes_concat_dropLast :
    ∀ (l : List Nat) (x a : Nat),
      (chunk_sizes ((x :: l) ++ [a])).dropLast = chunk_sizes (x :: l) := by
  intro l
  induction l with
  | nil => intro x a; rfl
  | cons y t ih =>
    intro x a
    show (chunk_sizes (x :: y :: (t ++ [a]))).dropLast = chunk_sizes (x :: y :: t)
    rw [chunk_sizes_cons_cons, chunk_sizes_cons_cons]
    have hne : chunk_sizes (y :: (t ++ [a])) ≠ [] := by
      cases t with
      | nil => simp [chunk_sizes]
      | cons z zs =>
        show chunk_sizes (y :: z :: (zs ++ [a])) ≠ []
        rw [chunk_sizes_cons_cons]
        simp
    have hih : (chunk_sizes (y :: (t ++ [a]))).dropLast = chunk_sizes (y :: t) := ih y a
    cases hcs : chunk_sizes (y :: (t ++ [a])) with
    | nil => exact absurd hcs hne
    | cons u us =>
      show (y - x) :: (u :: us).dropLast = (y - x) :: chunk_sizes (y :: t)
      rw [← hcs, hih]

theorem chunk_sizes_bounds_of_chain (minS maxS : Nat) :
    ∀ l : List Nat,
      List.Chain' (fun a b => a < b ∧ minS ≤ b - a ∧ b - a ≤ maxS) l →
      ∀ sz ∈ chunk_sizes l, minS ≤ sz ∧ sz ≤ maxS := by
  intro l
  induction l with
  | nil => intro _ sz hsz; simp [chunk_sizes] at hsz
  | cons x t ih =>
    intro hch sz hsz
    cases t with
    | nil => simp [chunk_sizes] at hsz
    | cons y u =>
      rw [chunk_sizes_cons_cons] at hsz
      rw [List.chain'_cons] at hch
      rcases List.mem_cons.mp hsz with rfl | hmem
      · exact ⟨hch.1.2.1, hch.1.2.2⟩
      · exact ih hch.2 sz hmem

/-- Loop invariant of the semantic chunking boundary loop: starting a chunk at
`start ≤ i` with fewer than `max_sentences` sentences already open, the
appended boundaries are strictly increasing with consecutive differences in
`[min_sentences, max_sentences]`, all at most `i + len(sims)`, and the final
open chunk has at most `max_sentences - 1` sentences. -/
theorem semantic_loop_spec (thr : ℚ) (minS maxS : Nat) (hmin : 0 < minS)
    (hmm : minS < maxS) :
    ∀ (sims : List ℚ) (i start : Nat), start ≤ i → i - start ≤ maxS - 1 →
      List.Chain' (fun a b => a < b ∧ minS ≤ b - a ∧ b - a ≤ maxS)
        (start :: semantic_boundaries_loop thr minS maxS sims i start) ∧
      (∀ b ∈ semantic_boundaries_loop thr minS maxS sims i start,
        b ≤ i + sims.length) ∧
      (i + sims.length) -
        (start :: semantic_boundaries_loop thr minS maxS sims i start).getLast
          (List.cons_ne_nil start _) ≤ maxS - 1 := by
  intro sims
  induction sims with
  | nil =>
    intro i start h1 h2
    refine ⟨List.chain'_singleton start, by simp [semantic_boundaries_loop], ?_⟩
    simp only [semantic_boundaries_loop, List.getLast_singleton, List.length_nil]
    omega
  | cons s rest ih =>
    intro i start h1 h2
    simp only [semantic_boundaries_loop]
    split_ifs with hc
    · have hclose := (chunk_closes_iff thr minS maxS s ((i + 1) - start)).mp hc
      obtain ⟨hch, hmem, hlast⟩ :=
        ih (i + 1) (i + 1) (Nat.le_refl _) (by omega)
      refine ⟨?_, ?_, ?_⟩
      · rw [List.chain'_cons]
        refine ⟨⟨by omega, by omega, by omega⟩, hch⟩
      · intro b hb
        rcases List.mem_cons.mp hb with rfl | hb2
        · simp only [List.length_cons]; omega
        · have := hmem b hb2
          simp only [List.length_cons]
          omega
      · rw [List.getLast_cons (List.cons_ne_nil _ _)]
        simp only [List.length_cons]
        have := hlast
        omega
    · have hopen : ¬ (maxS ≤ (i + 1) - start) := by
        intro hmx
        exact hc ((chunk_closes_iff thr minS maxS s ((i + 1) - start)).mpr (Or.inr hmx))
      obtain ⟨hch, hmem, hlast⟩ := ih (i + 1) start (by omega) (by omega)
      refine ⟨hch, ?_, ?_⟩
      · intro b hb
        have := hmem b hb
        simp only [List.length_cons]
        omega
      · simp only [List.length_cons]
        omega

/-- C5: with a threshold computed as mean minus std-dev times the factor over
the adjacent-pair similarities, the loop closes a chunk exactly when the next
similarity is below the threshold and the open chunk has at least
`min_sentences_per_chunk` sentences, or the open chunk has reached
`max_sentences_per_chunk`; consequently every chunk except possibly the last
has between `min_sentences_per_chunk` and `max_sentences_per_chunk`
sentences. -/
theorem C5_semantic_chunking (similarities : List ℚ) (factor sd thr : ℚ)
    (minS maxS : Nat) (hsen : 1 ≤ similarities.length) (hmin : 0 < minS)
    (hmm : minS < maxS) (hf0 : 0 ≤ factor) (hf1 : factor ≤ 1)
    (hsd0 : 0 ≤ sd) (hsd : sd * sd = np_variance similarities)
    (hthr : thr = np_mean similarities - sd * factor) :
    (∀ s size, chunk_closes thr minS maxS s size = true ↔
      ((s < thr ∧ minS ≤ size) ∨ maxS ≤ size)) ∧
    (∀ sz ∈ (chunk_sizes (semantic_boundaries thr minS maxS similarities)).dropLast,
      minS ≤ sz ∧ sz ≤ maxS) := by
  refine ⟨fun s size => chunk_closes_iff thr minS maxS s size, ?_⟩
  obtain ⟨hch, hmem, hlast⟩ :=
    semantic_loop_spec thr minS maxS hmin hmm similarities 0 0 (Nat.le_refl 0)
      (by omega)
  have hlastle :
      (0 :: semantic_boundaries_loop thr minS maxS similarities 0 0).getLast
        (List.cons_ne_nil 0 _) ≤ similarities.length := by
    have hmemlast := List.getLast_mem (List.cons_ne_nil 0
      (semantic_boundaries_loop thr minS maxS similarities 0 0))
    rcases List.mem_cons.mp hmemlast with heq | hin
    · omega
    · have := hmem _ hin
      omega
  have hform : semantic_boundaries thr minS maxS similarities =
      (0 :: semantic_boundaries_loop thr minS maxS similarities 0 0) ++
        [similarities.length + 1] := by
    unfold semantic_boundaries
    rw [if_pos (by omega)]
  rw [hform, chunk_sizes_concat_dropLast]
  exact chunk_sizes_bounds_of_chain minS maxS _ hch

/-- C5 witness: similarities [0,0] (three sentences), min 1, max 2,
factor 0, std-dev 0, threshold 0. -/
theorem C5_semantic_chunking_witness :
    (0 : Nat) < 1 ∧
    (chunk_closes 0 1 2 (-1) 1 = true ↔ (((-1 : ℚ) < 0 ∧ 1 ≤ 1) ∨ 2 ≤ 1)) :=
  ⟨by decide,
    (C5_semantic_chunking [0, 0] 0 0 0 1 2 (by decide) (by decide) (by decide)
      (by norm_num) (by norm_num) (by norm_num)
      (by norm_num [np_variance, np_mean])
      (by norm_num [np_mean])).1 (-1) 1⟩

/-- A Python runtime error raised by the semantic batching loop. -/
inductive PyError : Type where
  | valueError
  | indexError

/-- `np.argmax` over a vector of similarities: the first index attaining the
maximum value; raises ValueError on an empty array. -/
def np_argmax (l : List ℚ) : Except PyError Nat :=
  match l.maximum with
  | none => .error .valueError
  | some m => .ok (l.indexOf m)

/-- The chunk-routing semantic batching loop from
docs/concepts/other_techniques.md (lines 160-175):
`question_batches = [[] for _ in range(len(content_chunks))]`, then for each
question `q`, `most_similar_chunk = np.argmax(chunk_similarity)` and
`question_batches[most_similar_chunk].append(q)`; indexing outside the bucket
list raises IndexError. The cosine-similarity row of each question against
the chunks is the injected `simRow`. -/
def question_batches_loop (simRow : List Char → List ℚ) :
    List (List Char) → List (List (List Char)) →
      Except PyError (List (List (List Char)))
  | [], batches => .ok batches
  | q :: rest, batches =>
    match np_argmax (simRow q) with
    | .error e => .error e
    | .ok j =>
      if h : j < batches.length then
        question_batches_loop simRow rest (batches.set j (batches.get ⟨j, h⟩ ++ [q]))
      else .error .indexError

/-- Chunk-routing semantic batching: one (initially empty) bucket per chunk,
each question appended to the bucket of its most similar chunk. -/
def question_batches (simRow : List Char → List ℚ) (questions : List (List Char))
    (numChunks : Nat) : Except PyError (List (List (List Char))) :=
  question_batches_loop simRow questions (List.replicate numChunks [])

theorem get_ne_of_lt_indexOf {α : Type} [DecidableEq α] :
    ∀ (l : List α) (a : α) (k : Nat) (hk : k < l.length),
      k < l.indexOf a → l.get ⟨k, hk⟩ ≠ a := by
  intro l
  induction l with
  | nil => intro a k hk; simp at hk
  | cons b t ih =>
    intro a k hk hlt
    by_cases hba : b = a
    · subst hba
      rw [List.indexOf_cons_self] at hlt
      omega
    · rw [List.indexOf_cons_ne t hba] at hlt
      cases k with
      | zero => simpa using hba
      | succ k =>
        have hk2 : k < t.length := by simpa using hk
        simpa using ih a k hk2 (by omega)

/-- The result of `np_argmax` is in range, attains the maximum, and is the
first index doing so. -/
theorem np_argmax_spec (l : List ℚ) (j : Nat) (h : np_argmax l = .ok j) :
    j < l.length ∧ (∀ k, k < l.length → l.getD k 0 ≤ l.getD j 0) ∧
      (∀ k, k < j → l.getD k 0 < l.getD j 0) := by
  unfold np_argmax at h
  cases hm : l.maximum with
  | bot => rw [hm] at h; exact absurd h (fun he => Except.noConfusion he)
  | coe m =>
    rw [hm] at h
    have hj : j = l.indexOf m := (Except.ok.injEq _ _).mp h.symm
    have hmem : m ∈ l := List.maximum_mem hm
    have hlen : l.indexOf m < l.length := List.indexOf_lt_length.mpr hmem
    have hget : l.get ⟨l.indexOf m, hlen⟩ = m := List.indexOf_get hlen
    have hjv : l.getD j 0 = m := by
      rw [hj, List.getD_eq_getElem l 0 hlen]
      exact hget
    subst hj
    refine ⟨hlen, ?_, ?_⟩
    · intro k hk
      rw [hjv, List.getD_eq_getElem l 0 hk]
      exact List.le_maximum_of_mem (List.getElem_mem _) hm
    · intro k hk
      have hk2 : k < l.length := by omega
      have hle : l.getD k 0 ≤ m := by
        rw [List.getD_eq_getElem l 0 hk2]
        exact List.le_maximum_of_mem (List.getElem_mem _) hm
      have hne : l.getD k 0 ≠ m := by
        rw [List.getD_eq_getElem l 0 hk2]
        exact get_ne_of_lt_indexOf l m k hk2 hk
      rw [hjv]
      exact lt_of_le_of_ne hle hne

/-- Appending inside one bucket permutes the flattened buckets with the new
element appended. -/
theorem flatten_set_append {α : Type} :
    ∀ (l : List (List α)) (j : Nat) (h : j < l.length) (x : α),
      List.Perm ((l.set j (l.get ⟨j, h⟩ ++ [x])).flatten) (l.flatten ++ [x]) := by
  intro l
  induction l with
  | nil => intro j h; simp at h
  | cons b t ih =>
    intro j h x
    cases j with
    | zero =>
      rw [List.set_cons_zero]
      show List.Perm ((b ++ [x]) ++ t.flatten) ((b ++ t.flatten) ++ [x])
      rw [List.append_assoc, List.append_assoc]
      exact List.Perm.append_left b (List.perm_append_comm)
    | succ j =>
      have hj : j < t.length := by simpa using h
      rw [List.set_cons_succ]
      show List.Perm (b ++ (t.set j (t.get ⟨j, hj⟩ ++ [x])).flatten)
        ((b ++ t.flatten) ++ [x])
      rw [List.append_assoc]
      exact List.Perm.append_left b (ih j hj x)

/-- Invariant of the routing loop: it succeeds, preserves the number of
buckets, extends buckets monotonically, routes every processed question to
the bucket chosen by `np_argmax`, and the flattened buckets accumulate
exactly the processed questions. -/
theorem question_batches_loop_spec (simRow : List Char → List ℚ) (n : Nat)
    (hn : 0 < n) :
    ∀ (qs : List (List Char)) (batches : List (List (List Char))),
      batches.length = n → (∀ q ∈ qs, (simRow q).length = n) →
      ∃ final, question_batches_loop simRow qs batches = .ok final ∧
        final.length = n ∧
        List.Perm final.flatten (batches.flatten ++ qs) ∧
        (∀ j, j < n → ∀ q, q ∈ batches.getD j [] → q ∈ final.getD j []) ∧
        (∀ q ∈ qs, ∃ jq, np_argmax (simRow q) = .ok jq ∧ jq < n ∧
          q ∈ final.getD jq []) := by
  intro qs
  induction qs with
  | nil =>
    intro batches hlen _
    refine ⟨batches, rfl, hlen, by simp, fun j _ q hq => hq, by simp⟩
  | cons q rest ih =>
    intro batches hlen hsim
    have hq : (simRow q).length = n := hsim q (List.mem_cons_self q rest)
    cases hargmax : np_argmax (simRow q) with
    | error e =>
      exfalso
      unfold np_argmax at hargmax
      cases hm : (simRow q).maximum with
      | bot =>
        have hm2 : (simRow q).maximum = none := hm
        rw [List.maximum_eq_none] at hm2
        rw [hm2] at hq
        simp at hq
        omega
      | coe m => rw [hm] at hargmax; exact Except.noConfusion hargmax
    | ok j =>
      obtain ⟨hjl, -, -⟩ := np_argmax_spec (simRow q) j hargmax
      have hjn : j < batches.length := by omega
      obtain ⟨final, heq, hflen, hperm, hmono, hroute⟩ :=
        ih (batches.set j (batches.get ⟨j, hjn⟩ ++ [q]))
          (by simpa using hlen)
          (fun p hp => hsim p (List.mem_cons_of_mem q hp))
      refine ⟨final, ?_, hflen, ?_, ?_, ?_⟩
      · simp only [question_batches_loop]
        rw [hargmax]
        simp only
        rw [dif_pos hjn]
        exact heq
      · refine hperm.trans ?_
        have h1 := flatten_set_append batches j hjn q
        have h2 := h1.append_right rest
        refine h2.trans ?_
        rw [List.append_assoc, List.singleton_append]
      · intro k hk p hp
        refine hmono k hk p ?_
        have hkb : k < batches.length := by omega
        by_cases hkj : k = j
        · subst hkj
          rw [List.getD_eq_getElem _ _ (by simpa using hkb)]
          rw [List.getD_eq_getElem _ _ hkb] at hp
          rw [List.getElem_set_self]
          · exact List.mem_append_left _ (by simpa using hp)
        · rw [List.getD_eq_getElem _ _ (by simpa using hkb)]
          rw [List.getD_eq_getElem _ _ hkb] at hp
          rw [List.getElem_set_ne (fun hh => hkj hh.symm)]
          simpa using hp
      · intro p hp
        rcases List.mem_cons.mp hp with rfl | hp2
        · refine ⟨j, hargmax, by omega, ?_⟩
          refine hmono j (by omega) p ?_
          rw [List.getD_eq_getElem _ _ (by simpa using hjn)]
          rw [List.getElem_set_self]
          · exact List.mem_append_right _ (List.mem_singleton_self p)
        · exact hroute p hp2

/-- Whether an `Except` computation succeeded. -/
def exceptIsOk {ε α : Type} : Except ε α → Bool
  | .ok _ => true
  | .error _ => false

/-- C9 (amended): for every nonempty chunk sequence (here: at least one
chunk, each question's similarity row covering all chunks) and question
list, chunk-routing batching succeeds with exactly one bucket per chunk,
the flattened buckets are a permutation of the question list (no question
dropped or duplicated), and every question lands in the bucket of the chunk
of maximum cosine similarity, ties broken by the lowest chunk index; a
bucket may be empty. -/
theorem C9_chunk_routing_batching (simRow : List Char → List ℚ)
    (questions : List (List Char)) (numChunks : Nat) (hn : 0 < numChunks)
    (hsim : ∀ q ∈ questions, (simRow q).length = numChunks) :
    ∃ final, question_batches simRow questions numChunks = .ok final ∧
      final.length = numChunks ∧
      List.Perm final.flatten questions ∧
      (∀ q ∈ questions, ∃ j, np_argmax (simRow q) = .ok j ∧ j < numChunks ∧
        q ∈ final.getD j [] ∧
        (∀ k, k < numChunks → (simRow q).getD k 0 ≤ (simRow q).getD j 0) ∧
        (∀ k, k < j → (simRow q).getD k 0 < (simRow q).getD j 0)) := by
  obtain ⟨final, heq, hlen, hperm, -, hroute⟩ :=
    question_batches_loop_spec simRow numChunks hn questions
      (List.replicate numChunks []) (List.length_replicate _ _) hsim
  refine ⟨final, heq, hlen, ?_, ?_⟩
  · refine hperm.trans ?_
    simp
  · intro q hq
    obtain ⟨j, hargmax, hjn, hmem⟩ := hroute q hq
    obtain ⟨hjl, hmax, hfirst⟩ := np_argmax_spec (simRow q) j hargmax
    have hqlen := hsim q hq
    refine ⟨j, hargmax, hjn, hmem, ?_, hfirst⟩
    intro k hk
    exact hmax k (by omega)

/-- C9 counterexample: with an empty chunk sequence and one question, the
code raises ValueError from `np.argmax` on an empty similarity row instead
of producing a bucket assignment. -/
theorem C9_chunk_routing_batching_counterexample :
    question_batches (fun _ => []) [[Char.ofNat 113]] 0 =
      Except.error PyError.valueError := rfl

/-- C9 witness: one question, two chunks with distinct similarities. -/
theorem C9_chunk_routing_batching_witness :
    (0 : Nat) < 2 ∧
    exceptIsOk (question_batches (fun _ => [(0 : ℚ), 1]) [[Char.ofNat 97]] 2) =
      true := by
  refine ⟨by decide, ?_⟩
  obtain ⟨final, heq, -, -, -⟩ :=
    C9_chunk_routing_batching (fun _ => [(0 : ℚ), 1]) [[Char.ofNat 97]] 2
      (by decide) (fun q _ => rfl)
  rw [heq]
  rfl

end GB
